import Mathlib

/-!
Verification development for the xgetopt command-line option parsing library
(`src/xgetopt.h`).

Strings are embedded as `List Char`; an argument vector is a `List Token`.
The help formatter, the option-table validation checks and the `parse_impl`
wrapper loop are translated directly from the source.  The low-level token
scanning that the source delegates to the C library routine `getopt_long`
(whose code is not part of the repository) is modelled from the
specification's description of the scanning rules; those definitions carry a
`Modelled from the spec:` doc comment.
-/

deriving instance DecidableEq for Except

/-- A token of the argument vector, one `argv` entry, as a character list. -/
abbrev Token := List Char

/-- Conversion helper so concrete tokens can be written as string literals. -/
def str (s : String) : Token := s.toList

/-- The literal end-of-options token. -/
def dashDash : Token := ['-', '-']

/-- Whitespace test, translated from `Helpers::is_ws` (xgetopt.h:38-40).
The characters are space, tab, newline, carriage return, form feed (12)
and vertical tab (11). -/
def is_ws (c : Char) : Bool :=
  c = ' ' || c = '\t' || c = '\n' || c = '\r' || c = Char.ofNat 12 || c = Char.ofNat 11

/-- Argument requirement of an option, translated from the
`ArgumentRequirement` enum (xgetopt.h:178-182). -/
inductive ArgumentRequirement where
  | NoArgument
  | RequiredArgument
  | OptionalArgument
deriving DecidableEq, Repr

export ArgumentRequirement (NoArgument RequiredArgument OptionalArgument)

/-- One option descriptor, translated from `Helpers::OptionView`
(xgetopt.h:210-216).  `shortopt` is the option's integer id (a printable
character code in [33,126] acts as the short option character). -/
structure OptionView where
  shortopt : Int
  longopt : List Char
  description : List Char
  argRequirement : ArgumentRequirement
  argumentPlaceholder : List Char
deriving DecidableEq, Repr

/-- A parsed option, translated from `ParsedOption` (xgetopt.h:386-405):
the descriptor id together with the optionally bound argument. -/
structure ParsedOption where
  shortopt : Int
  argument : Option Token
deriving DecidableEq, Repr

/-- Result accumulator, translated from `OptionSequence` (xgetopt.h:412-488):
the parsed options and the non-option (positional) arguments, each in
encounter order. -/
structure OptionSequence where
  options : List ParsedOption
  nonOptionArguments : List Token
deriving DecidableEq, Repr

/-- Append one parsed option (`OptionSequence::addOption`, xgetopt.h:431). -/
def addOption (s : OptionSequence) (p : ParsedOption) : OptionSequence :=
  { s with options := s.options ++ [p] }

/-- Append several parsed options, the repeated `addOption` of the scan loop. -/
def addOptions (s : OptionSequence) (ps : List ParsedOption) : OptionSequence :=
  { s with options := s.options ++ ps }

/-- Append one non-option argument (`addNonOptionArgument`, xgetopt.h:434). -/
def addNonOpt (s : OptionSequence) (t : Token) : OptionSequence :=
  { s with nonOptionArguments := s.nonOptionArguments ++ [t] }

/-- Append several non-option arguments, the collect-all loop of
xgetopt.h:814-816. -/
def addNonOpts (s : OptionSequence) (ts : List Token) : OptionSequence :=
  { s with nonOptionArguments := s.nonOptionArguments ++ ts }

/-- Stop conditions, translated from the `StopCondition` enum
(xgetopt.h:513-518). -/
inductive StopCondition where
  | AllOptions
  | BeforeFirstNonOptionArgument
  | AfterFirstNonOptionArgument
  | BeforeFirstError
deriving DecidableEq, Repr

/-- Scan errors, the two `std::runtime_error` classes thrown by `parse_impl`
(xgetopt.h:863, 873, 880, 884): unknown option with the culprit token, and
missing required argument with the rendered option name. -/
inductive ScanError where
  | UnknownOption (tok : Token)
  | MissingRequiredArgument (name : Token)
deriving DecidableEq, Repr

/-! ## Option table validation (xgetopt.h:547-571) -/

/-- Duplicate-shortopt check, translated from the first `static_assert`
lambda of `OptionParser` (xgetopt.h:548-557): no two descriptors may share
the same `shortopt` id. -/
def shortopts_unique : List OptionView → Bool
  | [] => true
  | o :: rest => rest.all (fun p => !(o.shortopt == p.shortopt)) && shortopts_unique rest

/-- Duplicate-longopt check, translated from the second `static_assert`
lambda (xgetopt.h:560-571): no two descriptors may share the same
non-empty `longopt` name; empty names are skipped. -/
def longopts_unique : List OptionView → Bool
  | [] => true
  | o :: rest =>
    (o.longopt.isEmpty || rest.all (fun p => p.longopt.isEmpty || !(o.longopt == p.longopt)))
      && longopts_unique rest

/-- Combined construction-time validation: a table of descriptors constructs
successfully iff both `static_assert` checks pass.  A failing check is a
compile-time (construction-time) failure in the source, so an invalid table
is never observable. -/
def table_valid (opts : List OptionView) : Bool :=
  shortopts_unique opts && longopts_unique opts

/-! ## Help label sizing (xgetopt.h:235-302) -/

/-- Label length calculation, translated from
`Helpers::option_label_length` (xgetopt.h:236-282). -/
def option_label_length (o : OptionView) : Nat :=
  2
  + (if o.longopt ≠ [] then 2 + (2 + o.longopt.length) else 0)
  + (match o.argRequirement with
     | RequiredArgument => 2 + o.argumentPlaceholder.length + 1
     | OptionalArgument =>
       1 + (if o.longopt ≠ [] then 1 else 0) + o.argumentPlaceholder.length + 1
     | NoArgument => 0)

/-- Maximum label length over the table, translated from
`Helpers::max_option_label_length` (xgetopt.h:293-302). -/
def max_option_label_length (opts : List OptionView) : Nat :=
  opts.foldl (fun m o => max m (option_label_length o)) 0

/-! ## Word splitting and greedy wrap -/

/-- Character-by-character word accumulation; `cur` holds the characters of
the word currently being read, in reverse order. -/
def splitWordsAux : List Char → List Char → List (List Char)
  | [], cur => if cur = [] then [] else [cur.reverse]
  | c :: r, cur =>
    if is_ws c then
      if cur = [] then splitWordsAux r []
      else cur.reverse :: splitWordsAux r []
    else splitWordsAux r (c :: cur)

/-- Splitting a description into its whitespace-separated words; this is the
word iteration pattern (skip whitespace, take the maximal non-whitespace
run) shared by `calculate_help_string_length` (xgetopt.h:332-370) and
`generateHelpString` (xgetopt.h:690-722). -/
def splitWords (s : List Char) : List (List Char) := splitWordsAux s []

/-- Run of `n` spaces. -/
def spaces (n : Nat) : List Char := List.replicate n ' '

/-- The greedy word-wrap emitter of `generateHelpString` (xgetopt.h:690-722),
with the current column `pos` threaded explicitly.  `dc` is the description
column (`desc_col = max_label_length + 3`) and the line limit is the
constant 80 of the source.  A word is moved to a fresh indented line when
it would pass the limit and the cursor is strictly past the description
column; otherwise it is placed where the cursor stands.  The single
separating space before a further word can itself trigger a wrap. -/
def wrapEmit (dc : Nat) : List (List Char) → Nat → List Char
  | [], _ => []
  | [w], pos =>
    (if 80 < pos + w.length ∧ dc < pos then '\n' :: spaces dc else []) ++ w
  | w :: w2 :: ws, pos =>
    let wrapHere := 80 < pos + w.length ∧ dc < pos
    let pos2 := (if wrapHere then dc else pos) + w.length
    (if wrapHere then '\n' :: spaces dc else []) ++ w ++
      (if 80 < pos2 + 1 then ('\n' :: spaces dc) ++ wrapEmit dc (w2 :: ws) dc
       else ' ' :: wrapEmit dc (w2 :: ws) (pos2 + 1))

/-- The character-counting twin of `wrapEmit`, translated from the word loop
of `Helpers::calculate_help_string_length` (xgetopt.h:332-370); it adds the
same quantities the emitter appends. -/
def wrapCount (dc : Nat) : List (List Char) → Nat → Nat
  | [], _ => 0
  | [w], pos =>
    (if 80 < pos + w.length ∧ dc < pos then 1 + dc else 0) + w.length
  | w :: w2 :: ws, pos =>
    let wrapHere := 80 < pos + w.length ∧ dc < pos
    let pos2 := (if wrapHere then dc else pos) + w.length
    (if wrapHere then 1 + dc else 0) + w.length +
      (if 80 < pos2 + 1 then (1 + dc) + wrapCount dc (w2 :: ws) dc
       else 1 + wrapCount dc (w2 :: ws) (pos2 + 1))

/-! ## Help string generation (xgetopt.h:632-731) -/

/-- Argument annotation of the label, translated from the `switch` at
xgetopt.h:656-675: required arguments render as a space, angle brackets and
the placeholder; optional arguments as brackets with an equals sign when a
long name exists. -/
def argAnnot (o : OptionView) : List Char :=
  match o.argRequirement with
  | RequiredArgument => ' ' :: '<' :: (o.argumentPlaceholder ++ ['>'])
  | OptionalArgument =>
    '[' :: ((if o.longopt ≠ [] then ['='] else []) ++ o.argumentPlaceholder ++ [']'])
  | NoArgument => []

/-- Label emission, translated from xgetopt.h:640-675: a printable short id
renders as a dash and the character (followed by a comma and space when a
long name follows); a non-printable id renders as four alignment spaces;
then the double-dash long name and the argument annotation. -/
def emitLabel (o : OptionView) : List Char :=
  (if 33 ≤ o.shortopt ∧ o.shortopt ≤ 126
   then '-' :: Char.ofNat o.shortopt.toNat :: (if o.longopt ≠ [] then [',', ' '] else [])
   else spaces 4)
  ++ (if o.longopt ≠ [] then '-' :: '-' :: o.longopt else [])
  ++ argAnnot o

/-- One help entry, translated from the body of the per-option loop of
`generateHelpString` (xgetopt.h:636-725): two indent spaces, the label,
right padding up to the shared description column plus one separating
space, the wrapped description (the cursor starts at
`2 + max_label_length + 1`), and the terminating newline. -/
def helpEntry (maxL : Nat) (o : OptionView) : List Char :=
  [' ', ' '] ++ emitLabel o ++ spaces (maxL - option_label_length o + 1)
  ++ wrapEmit (maxL + 3) (splitWords o.description) (2 + maxL + 1)
  ++ ['\n']

/-- The full help string, translated from `generateHelpString`
(xgetopt.h:632-731): the per-option entries concatenated in table order.
The source writes into a fixed buffer sized by
`calculate_help_string_length`; the model emits the characters the source
appends, without the buffer cap. -/
def generateHelpString (opts : List OptionView) : List Char :=
  (opts.map (helpEntry (max_option_label_length opts))).flatten

/-- Per-entry character count of `calculate_help_string_length`
(xgetopt.h:317-373): the two indent characters, the label plus padding plus
one space, the wrapped-description count, and the newline. -/
def calcEntry (maxL : Nat) (o : OptionView) : Nat :=
  2 + (option_label_length o + (maxL - option_label_length o) + 1)
  + wrapCount (maxL + 3) (splitWords o.description) (2 + maxL + 1)
  + 1

/-- Help-string length bound, translated from
`Helpers::calculate_help_string_length` (xgetopt.h:312-376); the final `+ 1`
is the reserved trailing NUL terminator. -/
def calculate_help_string_length (opts : List OptionView) : Nat :=
  (opts.map (calcEntry (max_option_label_length opts))).foldl (· + ·) 0 + 1

/-! ## Line splitting (used to state the help-line-width claims) -/

/-- Maximal newline-free segments of a character list.  `splitNl s` is never
empty; a trailing newline contributes a final empty segment. -/
def splitNl : List Char → List (List Char)
  | [] => [[]]
  | c :: r =>
    if c = '\n' then [] :: splitNl r
    else
      match splitNl r with
      | [] => [[c]]
      | l :: ls => (c :: l) :: ls

/-! ## The argument scanner

The source's `parse_impl` (xgetopt.h:733-896) drives GNU `getopt_long` in
REQUIRE_ORDER mode (the leading `+` written by `build_short_options_`,
xgetopt.h:584) and post-processes its return values.  `getopt_long` itself
is C library code that is not part of the repository, so one scanning step
is modelled from the specification's scanning rules; the surrounding loop,
the stop conditions, the `--` special case and the error classification are
translated from the source. -/

/-- Lookup of a short option character, modelled from the spec: the short
options string built by `build_short_options_` (xgetopt.h:575-608) only
contains descriptors whose id lies in the printable range [33,126], and the
scanner matches a walked character against it. -/
def find_short (opts : List OptionView) (c : Char) : Option OptionView :=
  opts.find? (fun o =>
    decide (o.shortopt = (c.toNat : Int) ∧ 33 ≤ o.shortopt ∧ o.shortopt ≤ 126))

/-- Lookup by id over the whole table, translated from the `find_by_short`
lambda of `parse_impl` (xgetopt.h:761-766). -/
def find_by_short (opts : List OptionView) (s : Int) : Option OptionView :=
  opts.find? (fun o => o.shortopt == s)

/-- Lookup by non-empty long name, translated from the `find_by_long`
lambda of `parse_impl` (xgetopt.h:768-776). -/
def find_by_long (opts : List OptionView) (name : List Char) : Option OptionView :=
  opts.find? (fun o => !o.longopt.isEmpty && o.longopt == name)

/-- Long name extraction from a culprit token, translated from the
`token_to_long_name` lambda (xgetopt.h:778-787): a null pointer or a token
not starting with a double dash gives the empty name, otherwise the text
between the double dash and the first equals sign. -/
def token_to_long_name : Option Token → List Char
  | none => []
  | some t =>
    match t with
    | '-' :: '-' :: rest => rest.takeWhile (fun c => !(c == '='))
    | _ => []

/-- Splitting a long-option body at its first equals sign: the name and,
when an equals sign is present, the text after it. -/
def splitEq (body : List Char) : List Char × Option (List Char) :=
  let name := body.takeWhile (fun c => !(c == '='))
  if name.length = body.length then (name, none)
  else (name, some (body.drop (name.length + 1)))

/-- Does a token start with a dash? -/
def startsWithDash : Token → Bool
  | [] => false
  | c :: _ => c = '-'

/-- The token at index `i` of the vector (`argv[i]`); the default is never
reached at the indices the scanner examines. -/
def tokAt (args : List Token) (i : Nat) : Token := args.getD i []

/-- Outcome of walking one clustered short-option token. -/
inductive ClusterOut where
  | ok (ps : List ParsedOption) (consumedNext : Bool)
  | err (ps : List ParsedOption) (optopt : Int)
deriving DecidableEq, Repr

/-- Modelled from the spec: the walk of a clustered short-option token
(spec rule 3), the per-character scanning `getopt_long` performs on a token
starting with a single dash.  `cs` are the characters still to walk and
`next` is the following token of the vector (if any).  An unmatched
character fails with that character as `optopt` (the culprit reported later
is the full original token); a matched no-argument option is recorded and
the walk continues; a matched required-argument option binds the remaining
characters, else consumes the next token, else fails; a matched
optional-argument option binds the remaining characters, else consumes the
next token only when that token exists and does not itself start with a
dash (hence is not the literal double dash), else binds nothing.  Consuming
an argument ends the walk. -/
def walkCluster (opts : List OptionView) : List Char → Option Token → ClusterOut
  | [], _ => .ok [] false
  | c :: rest, next =>
    match find_short opts c with
    | none => .err [] (c.toNat : Int)
    | some o =>
      match o.argRequirement with
      | NoArgument =>
        (match walkCluster opts rest next with
         | .ok ps b => .ok (⟨o.shortopt, none⟩ :: ps) b
         | .err ps e => .err (⟨o.shortopt, none⟩ :: ps) e)
      | RequiredArgument =>
        if rest ≠ [] then .ok [⟨o.shortopt, some rest⟩] false
        else
          match next with
          | some t => .ok [⟨o.shortopt, some t⟩] true
          | none => .err [] (c.toNat : Int)
      | OptionalArgument =>
        if rest ≠ [] then .ok [⟨o.shortopt, some rest⟩] false
        else
          match next with
          | some t =>
            if startsWithDash t then .ok [⟨o.shortopt, none⟩] false
            else .ok [⟨o.shortopt, some t⟩] true
          | none => .ok [⟨o.shortopt, none⟩] false

/-- Result of one `getopt_long` examination step at token index `i`:
`finished j` models a -1 return with the global index left at `j` (the end
of the vector, a non-option token, or a consumed end-of-options marker);
`parsed ps j` models the successful value returns harvested from one token
(several for a cluster) with the index advanced to `j`; `failed ps e`
models a question-mark return with `optopt = e` after the prefix `ps` of a
cluster was already recorded. -/
inductive GetoptOut where
  | finished (j : Nat)
  | parsed (ps : List ParsedOption) (j : Nat)
  | failed (ps : List ParsedOption) (optopt : Int)
deriving DecidableEq, Repr

/-- Modelled from the spec: one examination step of `getopt_long` in
REQUIRE_ORDER mode at index `i` (spec rules 1-4).  Past the end it returns
finished; the literal double dash is consumed and returns finished; a
double-dash token is matched as a long option against the table, binding
an argument from the equals suffix, or (required only) from the next
token; a single-dash token of length at least two is walked as a cluster;
anything else (a lone dash, or a token without leading dash) is a
non-option and scanning stops on it without consuming it. -/
def getoptStep (opts : List OptionView) (args : List Token) (i : Nat) : GetoptOut :=
  if args.length ≤ i then .finished i
  else
    if tokAt args i = dashDash then .finished (i + 1)
    else
      match tokAt args i with
      | [] => .finished i
      | c0 :: tokRest =>
        if c0 = '-' then
          match tokRest with
          | [] => .finished i
          | c1 :: body =>
            if c1 = '-' then
              let (name, eqv) := splitEq body
              match find_by_long opts name with
              | none => .failed [] 0
              | some o =>
                match o.argRequirement, eqv with
                | NoArgument, some _ => .failed [] o.shortopt
                | NoArgument, none => .parsed [⟨o.shortopt, none⟩] (i + 1)
                | RequiredArgument, some v => .parsed [⟨o.shortopt, some v⟩] (i + 1)
                | RequiredArgument, none =>
                  if i + 1 < args.length then
                    .parsed [⟨o.shortopt, some (tokAt args (i + 1))⟩] (i + 2)
                  else .failed [] o.shortopt
                | OptionalArgument, some v => .parsed [⟨o.shortopt, some v⟩] (i + 1)
                | OptionalArgument, none => .parsed [⟨o.shortopt, none⟩] (i + 1)
            else
              match walkCluster opts (c1 :: body) args[i + 1]? with
              | .ok ps true => .parsed ps (i + 2)
              | .ok ps false => .parsed ps (i + 1)
              | .err ps e => .failed ps e
        else .finished i

/-- Error classification, translated from the error-handling block of
`parse_impl` (xgetopt.h:845-884): a nonzero `optopt` naming a
required-argument descriptor gives a missing-argument error (rendered as
the dashed character when printable, else the long name or three question
marks); else a culprit token shaped as a long option naming a
required-argument descriptor gives a missing-argument error; else the
culprit token (or nothing) is reported as an unknown option. -/
def classify_error (opts : List OptionView) (optopt : Int) (culprit : Option Token) :
    ScanError :=
  let shortMissing : Option ScanError :=
    if optopt ≠ 0 then
      match find_by_short opts optopt with
      | some o =>
        if o.argRequirement = RequiredArgument then
          some (.MissingRequiredArgument
            (if 33 ≤ optopt ∧ optopt ≤ 126 then ['-', Char.ofNat optopt.toNat]
             else if o.longopt ≠ [] then o.longopt else ['?', '?', '?']))
        else none
      | none => none
    else none
  match shortMissing with
  | some e => e
  | none =>
    let long_name := token_to_long_name culprit
    let longMissing : Option ScanError :=
      if long_name ≠ [] then
        match find_by_long opts long_name with
        | some o =>
          if o.argRequirement = RequiredArgument then
            some (.MissingRequiredArgument ('-' :: '-' :: long_name))
          else none
        | none => none
      else none
    match longMissing with
    | some e => e
    | none =>
      match culprit with
      | some t => .UnknownOption t
      | none => .UnknownOption []

/-- The scanning loop of `parse_impl` (xgetopt.h:791-890), with the result
remainder start index in place of the `remainder_start`/`optind` pair: on a
finished step it stops at the end of the vector, handles the special case
of a just-passed double-dash token (xgetopt.h:802-819), or treats the
current token as a non-option argument per the stop condition
(xgetopt.h:822-836); on a failed step it either stops silently before the
offending token (BeforeFirstError, xgetopt.h:841-844) or raises the
classified error; on parsed options it records them and continues.
`fuel` bounds the iteration count; the source loop performs at most one
iteration per argument-vector token, so the callers' fuel of
`args.length + 1` is never exhausted. -/
def scanLoop (opts : List OptionView) (stop : StopCondition) (args : List Token) :
    Nat → OptionSequence → Nat → Except ScanError (OptionSequence × Nat)
  | 0, acc, i => .ok (acc, i)
  | fuel + 1, acc, i =>
    let tix := if i = 0 then 1 else i
    match getoptStep opts args i with
    | .finished j =>
      if args.length ≤ j then .ok (acc, j)
      else if 0 < j ∧ tokAt args (j - 1) = dashDash then
        match stop with
        | .BeforeFirstNonOptionArgument => .ok (acc, tix)
        | .AfterFirstNonOptionArgument => .ok (addNonOpt acc (tokAt args j), j + 1)
        | _ => .ok (addNonOpts acc (args.drop j), args.length)
      else
        match stop with
        | .BeforeFirstNonOptionArgument => .ok (acc, tix)
        | .AfterFirstNonOptionArgument => .ok (addNonOpt acc (tokAt args j), j + 1)
        | _ => scanLoop opts stop args fuel (addNonOpt acc (tokAt args j)) (j + 1)
    | .parsed ps j => scanLoop opts stop args fuel (addOptions acc ps) j
    | .failed ps e =>
      if stop = .BeforeFirstError then .ok (addOptions acc ps, tix)
      else .error (classify_error opts e args[tix]?)

/-- Modelled from the spec: the mutable scanner cursor (`optind` and
friends) that `getopt_long` keeps in global state between calls.  Setting
`optind` to zero makes the next call reinitialize the cursor completely
(the glibc behavior the source relies on at xgetopt.h:753-754). -/
structure GetoptState where
  optind : Nat
deriving DecidableEq, Repr

/-- Modelled from the spec: running the scan from a given global cursor
state.  A zeroed cursor is fully reinitialized and the scan starts fresh at
index 1 (past the program name); a nonzero cursor would make the scan
resume at the leftover index. -/
def scanFromState (stop : StopCondition) (opts : List OptionView) (args : List Token)
    (g : GetoptState) : Except ScanError (OptionSequence × Nat) :=
  if g.optind = 0 then scanLoop opts stop args (args.length + 1) ⟨[], []⟩ 1
  else scanLoop opts stop args (args.length + 1) ⟨[], []⟩ g.optind

/-- The scan entry point, translated from `parse_impl` (xgetopt.h:733-896):
it first resets the getopt globals (`opterr = 0`, and `optind = 0` on glibc
so the next call reinitializes fully, xgetopt.h:738-757) and then runs the
loop.  The returned index is `remainder_start` when set, else the final
cursor (xgetopt.h:892); the C++ remainder is the pair
`(argc - start, &argv[start])` over the untouched vector. -/
def parse_impl (g : GetoptState) (stop : StopCondition) (opts : List OptionView)
    (args : List Token) : Except ScanError (OptionSequence × Nat) :=
  scanFromState stop opts args { g with optind := 0 }

/-- The `parse` public entry (xgetopt.h:918-920): an AllOptions scan. -/
def parse (opts : List OptionView) (args : List Token) :
    Except ScanError (OptionSequence × Nat) :=
  parse_impl ⟨1⟩ .AllOptions opts args

/-- The `parse_until` public entry (xgetopt.h:933-936). -/
def parse_until (stop : StopCondition) (opts : List OptionView) (args : List Token) :
    Except ScanError (OptionSequence × Nat) :=
  parse_impl ⟨1⟩ stop opts args

/-! ## Concrete descriptors used by witnesses and counterexamples -/

/-- Concrete descriptor: short and long, no argument. -/
def optH : OptionView := ⟨104, str "help", str "show this help text", NoArgument, str "arg"⟩

/-- Concrete descriptor: short and long, no argument. -/
def optV : OptionView := ⟨118, str "verbose", str "verbose output", NoArgument, str "arg"⟩

/-- Concrete descriptor: short and long, required argument. -/
def optO : OptionView := ⟨111, str "output", str "output file", RequiredArgument, str "file"⟩

/-- Concrete descriptor: short and long, optional argument. -/
def optP : OptionView := ⟨112, str "param", str "an optional parameter", OptionalArgument, str "arg"⟩

/-- Degenerate descriptor: a non-printable id with an empty long name. -/
def degOptA : OptionView := ⟨1000, [], str "d", NoArgument, str "arg"⟩

/-- Degenerate descriptor: a non-printable id with an empty long name. -/
def degOptB : OptionView := ⟨1000, [], str "q", NoArgument, str "arg"⟩

/-- Descriptor whose description is one unbreakable 83-character word. -/
def wideOpt : OptionView := ⟨120, [], List.replicate 83 'w', NoArgument, str "arg"⟩

/-! ## Validation lemmas -/

/-- The duplicate-shortopt check passes exactly when the ids are pairwise
distinct. -/
theorem shortopts_unique_iff (opts : List OptionView) :
    shortopts_unique opts = true ↔
      List.Pairwise (fun a b => a.shortopt ≠ b.shortopt) opts := by
  induction opts with
  | nil => simp [shortopts_unique]
  | cons o rest ih =>
    simp [shortopts_unique, List.pairwise_cons, ih, List.all_eq_true]

/-- The duplicate-longopt check passes exactly when the non-empty long names
are pairwise distinct. -/
theorem longopts_unique_iff (opts : List OptionView) :
    longopts_unique opts = true ↔
      List.Pairwise (fun a b => a.longopt ≠ [] → b.longopt ≠ [] → a.longopt ≠ b.longopt)
        opts := by
  induction opts with
  | nil => simp [longopts_unique]
  | cons o rest ih =>
    simp only [longopts_unique, Bool.and_eq_true, Bool.or_eq_true, List.all_eq_true,
      List.isEmpty_iff, List.pairwise_cons, ih]
    constructor
    · rintro ⟨h1, h2⟩
      refine ⟨?_, h2⟩
      intro b hb hob hbne
      rcases h1 with h1 | h1
      · exact absurd h1 hob
      · rcases h1 b hb with h | h
        · exact absurd h hbne
        · simpa using h
    · rintro ⟨h1, h2⟩
      refine ⟨?_, h2⟩
      by_cases ho : o.longopt = []
      · exact Or.inl ho
      · refine Or.inr fun b hb => ?_
        by_cases hbe : b.longopt = []
        · exact Or.inl hbe
        · exact Or.inr (by simpa using h1 b hb ho hbe)

/-- C5: an option table constructs successfully iff no two descriptors share
an id and no two descriptors share a non-empty long name; the checks run at
construction time (`static_assert`), so an invalid table is never
observable. -/
theorem claim_C5 (opts : List OptionView) :
    table_valid opts = true ↔
      (List.Pairwise (fun a b => a.shortopt ≠ b.shortopt) opts ∧
       List.Pairwise (fun a b => a.longopt ≠ [] → b.longopt ≠ [] → a.longopt ≠ b.longopt)
         opts) := by
  simp [table_valid, Bool.and_eq_true, shortopts_unique_iff, longopts_unique_iff]

/-- C8: two scans against the same option table are independent; whatever
cursor state a previous call left in the getopt globals, `parse_impl`
resets it (xgetopt.h:738-757) and the result is the same as from any other
starting state. -/
theorem claim_C8 (stop : StopCondition) (opts : List OptionView) (args : List Token)
    (g₁ g₂ : GetoptState) :
    parse_impl g₁ stop opts args = parse_impl g₂ stop opts args := by
  cases g₁; cases g₂; rfl

/-- C3: evaluation of the scan at the failing input.  With `o` requiring an
argument and `v` a known no-argument option, scanning
`prog -o -- x -v` under AllOptions consumes `--` as the argument of `-o`;
the claim (and the spec's scanning rules) then make `x` a positional and
`-v` a recognized option, but the code's `argv[optind-1] == "--"` special
case (xgetopt.h:802) misdetects an end-of-options marker and records both
`x` and `-v` as positionals, so the option token `-v` occurring after the
positional `x` is not recognized. -/
theorem claim_C3 :
    parse [optO, optV] [str "prog", str "-o", str "--", str "x", str "-v"]
      = .ok (⟨[⟨111, some (str "--")⟩], [str "x", str "-v"]⟩, 5) ∧
    (∀ p ∈ [ParsedOption.mk 111 (some (str "--"))], p.shortopt ≠ 118) := by
  exact ⟨by decide, by decide⟩

/-- C6 counterexample: a description consisting of one unbreakable
83-character word produces a help line of 88 characters, so the claim that
every help line is at most 80 characters fails on this table. -/
theorem claim_C6_cex :
    ¬ (∀ l ∈ splitNl (generateHelpString [wideOpt]), l.length ≤ 80) := by
  decide

/-- C7 counterexample: for a descriptor with a non-printable id and an empty
long name the generator emits four alignment spaces while the label length
used for padding is 2, so the description block of that entry starts at
column 7, not at the claimed column `max label length + 3 = 5`. -/
theorem claim_C7_cex :
    ((generateHelpString [degOptB]).takeWhile (fun c => c = ' ')).length
      ≠ max_option_label_length [degOptB] + 3 := by
  decide

/-- C10 counterexample: on the same degenerate descriptor the length bound
reserves 7 characters plus the NUL while the generator emits 9 characters,
so `calculate_help_string_length - 1` is not the emitted length (in the
source the fixed buffer is then too small and truncates). -/
theorem claim_C10_cex :
    calculate_help_string_length [degOptA] - 1 ≠ (generateHelpString [degOptA]).length := by
  decide

/-! ## Long-option body splitting lemmas -/

/-- A body without an equals sign splits into itself and no argument. -/
theorem splitEq_no_eq (name : List Char) (h : ∀ c ∈ name, c ≠ '=') :
    splitEq name = (name, none) := by
  have htw : name.takeWhile (fun c => !(c == '=')) = name := by
    rw [List.takeWhile_eq_self_iff]
    intro x hx
    simpa using h x hx
  simp [splitEq, htw]

/-- A body with an equals sign splits into the name and the text after the
first equals sign. -/
theorem splitEq_with_eq (name v : List Char) (h : ∀ c ∈ name, c ≠ '=') :
    splitEq (name ++ '=' :: v) = (name, some v) := by
  have htw : (name ++ '=' :: v).takeWhile (fun c => !(c == '=')) = name := by
    rw [List.takeWhile_append_of_pos (by intro a ha; simpa using h a ha)]
    simp
  have hlen : name.length ≠ (name ++ '=' :: v).length := by
    simp
  have hdrop : (name ++ '=' :: v).drop (name.length + 1) = v := by
    rw [show name ++ '=' :: v = (name ++ ['=']) ++ v by simp]
    exact List.drop_left' (by simp)
  simp [splitEq, htw, hlen, hdrop]

/-- C1: a short option with an optional argument, walked to the end of its
token, consumes and binds the next token when that token exists and does
not start with a dash (hence is not the literal double dash); in
particular, scanning a lone `-c` token followed by such a token binds it
with no positional recorded. -/
theorem claim_C1 (opts : List OptionView) (c : Char) (o : OptionView) (t : Token)
    (g : GetoptState)
    (hfind : find_short opts c = some o)
    (hreq : o.argRequirement = OptionalArgument)
    (ht : startsWithDash t = false)
    (hc : c ≠ '-') :
    walkCluster opts [c] (some t) = .ok [⟨o.shortopt, some t⟩] true ∧
    parse_impl g .AllOptions opts [str "prog", ['-', c], t]
      = .ok (⟨[⟨o.shortopt, some t⟩], []⟩, 3) := by
  have hwalk : walkCluster opts [c] (some t) = .ok [⟨o.shortopt, some t⟩] true := by
    simp [walkCluster, hfind, hreq, ht]
  refine ⟨hwalk, ?_⟩
  cases g
  simp [parse_impl, scanFromState, scanLoop, getoptStep, tokAt, hwalk, hc, dashDash,
    addOptions]

/-- C2: a long option with an optional argument binds an argument iff the
token carries an equals suffix; the following separate token is never
consumed as its argument.  A bare `--name` token yields the option with no
argument; `--name=v` binds `v`; `--name` followed by a separate non-option
token leaves the argument absent and records that token as a positional. -/
theorem claim_C2 (opts : List OptionView) (name v z : List Char) (o : OptionView)
    (g : GetoptState)
    (hfind : find_by_long opts name = some o)
    (hreq : o.argRequirement = OptionalArgument)
    (hne : name ≠ [])
    (heq : ∀ c ∈ name, c ≠ '=')
    (hz : startsWithDash z = false) :
    parse_impl g .AllOptions opts [str "prog", '-' :: '-' :: name]
      = .ok (⟨[⟨o.shortopt, none⟩], []⟩, 2) ∧
    parse_impl g .AllOptions opts [str "prog", '-' :: '-' :: (name ++ '=' :: v)]
      = .ok (⟨[⟨o.shortopt, some v⟩], []⟩, 2) ∧
    parse_impl g .AllOptions opts [str "prog", '-' :: '-' :: name, z]
      = .ok (⟨[⟨o.shortopt, none⟩], [z]⟩, 3) := by
  cases g
  have h1 := splitEq_no_eq name heq
  have h2 := splitEq_with_eq name v heq
  refine ⟨?_, ?_, ?_⟩
  · simp [parse_impl, scanFromState, scanLoop, getoptStep, tokAt, h1, hfind, hreq, dashDash,
      hne, addOptions]
  · simp [parse_impl, scanFromState, scanLoop, getoptStep, tokAt, h2, hfind, hreq, dashDash,
      addOptions]
  · rcases z with _ | ⟨zc, zrest⟩
    · simp [parse_impl, scanFromState, scanLoop, getoptStep, tokAt, h1, hfind, hreq, dashDash,
        hne, addOptions, addNonOpt]
    · have hzc : zc ≠ '-' := by simpa [startsWithDash] using hz
      simp [parse_impl, scanFromState, scanLoop, getoptStep, tokAt, h1, hfind, hreq, dashDash,
        hne, hzc, addOptions, addNonOpt]

/-! ## BeforeFirstError never surfaces an error -/

/-- Under the BeforeFirstError stop condition the scan loop never returns an
error: every would-be error site returns the options parsed so far together
with the index of the offending token instead. -/
theorem scanLoop_bfe_ok (opts : List OptionView) (args : List Token) :
    ∀ (fuel : Nat) (acc : OptionSequence) (i : Nat) (e : ScanError),
      scanLoop opts .BeforeFirstError args fuel acc i ≠ .error e := by
  intro fuel
  induction fuel with
  | zero =>
    intro acc i e h
    simp [scanLoop] at h
  | succ n ih =>
    intro acc i e h
    rcases hstep : getoptStep opts args i with j | ⟨ps, j⟩ | ⟨ps, e2⟩
    · simp only [scanLoop, hstep] at h
      split at h
      · simp at h
      · split at h
        · simp at h
        · exact ih _ _ _ h
    · simp only [scanLoop, hstep] at h
      exact ih _ _ _ h
    · simp only [scanLoop, hstep] at h
      simp at h

/-- C4: under BeforeFirstError no error is ever surfaced (the scan stops
silently instead), and on `prog -v --nope zzz` the scan returns the parsed
`v` with the remainder starting at the offending `--nope` token, while the
same input under AllOptions raises UnknownOption for `--nope`. -/
theorem claim_C4 :
    (∀ (g : GetoptState) (opts : List OptionView) (args : List Token) (e : ScanError),
        parse_impl g .BeforeFirstError opts args ≠ .error e) ∧
    parse_until .BeforeFirstError [optV] [str "prog", str "-v", str "--nope", str "zzz"]
      = .ok (⟨[⟨118, none⟩], []⟩, 2) ∧
    parse_until .AllOptions [optV] [str "prog", str "-v", str "--nope", str "zzz"]
      = .error (.UnknownOption (str "--nope")) := by
  refine ⟨?_, by decide, by decide⟩
  intro g opts args e h
  cases g
  simp only [parse_impl, scanFromState] at h
  exact scanLoop_bfe_ok opts args _ _ _ e (by simpa using h)

/-! ## Remainder bounds -/

/-- A cluster walk can only consume the next token when one exists. -/
theorem walkCluster_consumed (opts : List OptionView) :
    ∀ (cs : List Char) (ps : List ParsedOption),
      walkCluster opts cs none ≠ .ok ps true := by
  intro cs
  induction cs with
  | nil =>
    intro ps h
    simp [walkCluster] at h
  | cons c rest ih =>
    intro ps h
    rcases hf : find_short opts c with _ | o
    · simp [walkCluster, hf] at h
    · rcases ho : o.argRequirement
      · rcases hw : walkCluster opts rest none with ⟨ps', b⟩ | ⟨ps', e⟩
        · simp only [walkCluster, hf, ho, hw] at h
          cases b
          · simp at h
          · exact ih ps' hw
        · simp [walkCluster, hf, ho, hw] at h
      · simp only [walkCluster, hf, ho] at h
        split at h <;> simp at h
      · simp only [walkCluster, hf, ho] at h
        split at h <;> simp at h

/-- A parsed step strictly advances the index and stays within the vector. -/
theorem getoptStep_parsed_bounds (opts : List OptionView) (args : List Token)
    (i j : Nat) (ps : List ParsedOption)
    (h : getoptStep opts args i = .parsed ps j) : i < j ∧ j ≤ args.length := by
  by_cases hlen : args.length ≤ i
  · simp [getoptStep, hlen] at h
  · by_cases hdd : tokAt args i = dashDash
    · simp [getoptStep, hlen, hdd] at h
    · rcases htok : tokAt args i with _ | ⟨c0, tokRest⟩
      · simp [getoptStep, hlen, htok, dashDash] at h
      · by_cases hc0 : c0 = '-'
        · subst hc0
          rcases htr : tokRest with _ | ⟨c1, body⟩
          · simp [getoptStep, hlen, htok, htr, dashDash] at h
          · by_cases hc1 : c1 = '-'
            · subst hc1
              have hbody : body ≠ [] := by
                intro hb
                apply hdd
                rw [htok, htr, hb]
                rfl
              rcases hsp : splitEq body with ⟨name, eqv⟩
              rcases hfl : find_by_long opts name with _ | o
              · simp [getoptStep, hlen, htok, htr, dashDash, hbody, hsp, hfl] at h
              · rcases ho : o.argRequirement <;> rcases heqv : eqv with _ | v
                · simp [getoptStep, hlen, htok, htr, dashDash, hbody, hsp, hfl, ho,
                    heqv] at h
                  obtain ⟨-, hj⟩ := h
                  omega
                · simp [getoptStep, hlen, htok, htr, dashDash, hbody, hsp, hfl, ho,
                    heqv] at h
                · by_cases hil : i + 1 < args.length
                  · simp [getoptStep, hlen, htok, htr, dashDash, hbody, hsp, hfl, ho,
                      heqv, hil] at h
                    obtain ⟨-, hj⟩ := h
                    omega
                  · simp [getoptStep, hlen, htok, htr, dashDash, hbody, hsp, hfl, ho,
                      heqv, hil] at h
                · simp [getoptStep, hlen, htok, htr, dashDash, hbody, hsp, hfl, ho,
                    heqv] at h
                  obtain ⟨-, hj⟩ := h
                  omega
                · simp [getoptStep, hlen, htok, htr, dashDash, hbody, hsp, hfl, ho,
                    heqv] at h
                  obtain ⟨-, hj⟩ := h
                  omega
                · simp [getoptStep, hlen, htok, htr, dashDash, hbody, hsp, hfl, ho,
                    heqv] at h
                  obtain ⟨-, hj⟩ := h
                  omega
            · rcases hw : walkCluster opts (c1 :: body) args[i + 1]? with ⟨ps', b⟩ | ⟨ps', e⟩
              · cases b
                · simp [getoptStep, hlen, htok, htr, dashDash, hc1, hw] at h
                  obtain ⟨-, hj⟩ := h
                  omega
                · rcases hnext : args[i + 1]? with _ | t
                  · rw [hnext] at hw
                    exact absurd hw (walkCluster_consumed opts _ ps')
                  · have hi1 : i + 1 < args.length := (List.getElem?_eq_some.mp hnext).1
                    simp [getoptStep, hlen, htok, htr, dashDash, hc1, hw] at h
                    obtain ⟨-, hj⟩ := h
                    omega
              · simp [getoptStep, hlen, htok, htr, dashDash, hc1, hw] at h
        · simp [getoptStep, hlen, htok, dashDash, hc0] at h

/-- A finished step never moves the index backwards, and moves it past the
end only when it was already past the end. -/
theorem getoptStep_finished_bounds (opts : List OptionView) (args : List Token)
    (i j : Nat) (h : getoptStep opts args i = .finished j) :
    i ≤ j ∧ (j ≤ args.length ∨ j = i) := by
  by_cases hlen : args.length ≤ i
  · simp [getoptStep, hlen] at h
    omega
  · by_cases hdd : tokAt args i = dashDash
    · simp [getoptStep, hlen, hdd] at h
      omega
    · rcases htok : tokAt args i with _ | ⟨c0, tokRest⟩
      · simp [getoptStep, hlen, htok, dashDash] at h
        omega
      · by_cases hc0 : c0 = '-'
        · subst hc0
          rcases htr : tokRest with _ | ⟨c1, body⟩
          · simp [getoptStep, hlen, htok, htr, dashDash] at h
            omega
          · by_cases hc1 : c1 = '-'
            · subst hc1
              have hbody : body ≠ [] := by
                intro hb
                apply hdd
                rw [htok, htr, hb]
                rfl
              rcases hsp : splitEq body with ⟨name, eqv⟩
              rcases hfl : find_by_long opts name with _ | o
              · simp [getoptStep, hlen, htok, htr, dashDash, hbody, hsp, hfl] at h
              · rcases ho : o.argRequirement <;> rcases heqv : eqv with _ | v
                · simp [getoptStep, hlen, htok, htr, dashDash, hbody, hsp, hfl, ho,
                    heqv] at h
                · simp [getoptStep, hlen, htok, htr, dashDash, hbody, hsp, hfl, ho,
                    heqv] at h
                · simp [getoptStep, hlen, htok, htr, dashDash, hbody, hsp, hfl, ho,
                    heqv] at h
                  split at h <;> simp at h
                · simp [getoptStep, hlen, htok, htr, dashDash, hbody, hsp, hfl, ho,
                    heqv] at h
                · simp [getoptStep, hlen, htok, htr, dashDash, hbody, hsp, hfl, ho,
                    heqv] at h
                · simp [getoptStep, hlen, htok, htr, dashDash, hbody, hsp, hfl, ho,
                    heqv] at h
            · rcases hw : walkCluster opts (c1 :: body) args[i + 1]? with ⟨ps', b⟩ | ⟨ps', e⟩
              · cases b <;>
                  simp [getoptStep, hlen, htok, htr, dashDash, hc1, hw] at h
              · simp [getoptStep, hlen, htok, htr, dashDash, hc1, hw] at h
        · simp [getoptStep, hlen, htok, dashDash, hc0] at h
          omega

/-- The scan loop only ever reports a remainder start inside the argument
vector (given that it starts inside it). -/
theorem scanLoop_start_le (opts : List OptionView) (stop : StopCondition)
    (args : List Token) :
    ∀ (fuel : Nat) (acc : OptionSequence) (i : Nat) (seq : OptionSequence) (start : Nat),
      1 ≤ i → i ≤ args.length →
      scanLoop opts stop args fuel acc i = .ok (seq, start) → start ≤ args.length := by
  intro fuel
  induction fuel with
  | zero =>
    intro acc i seq start h1 h2 h
    simp [scanLoop] at h
    omega
  | succ n ih =>
    intro acc i seq start h1 h2 h
    rcases hstep : getoptStep opts args i with j | ⟨ps, j⟩ | ⟨ps, e⟩
    · have hb := getoptStep_finished_bounds opts args i j hstep
      simp only [scanLoop, hstep] at h
      split at h
      · simp at h
        obtain ⟨-, h⟩ := h
        omega
      · rename_i hj
        split at h
        · split at h
          · simp at h
            obtain ⟨-, h⟩ := h
            rw [if_neg (by omega : ¬ i = 0)] at h
            omega
          · simp at h
            obtain ⟨-, h⟩ := h
            omega
          · simp at h
            obtain ⟨-, h⟩ := h
            omega
        · split at h
          · simp at h
            obtain ⟨-, h⟩ := h
            rw [if_neg (by omega : ¬ i = 0)] at h
            omega
          · simp at h
            obtain ⟨-, h⟩ := h
            omega
          · exact ih _ _ _ _ (by omega) (by omega) h
    · have hb := getoptStep_parsed_bounds opts args i j ps hstep
      simp only [scanLoop, hstep] at h
      exact ih _ _ _ _ (by omega) (by omega) h
    · simp only [scanLoop, hstep] at h
      split at h
      · simp at h
        obtain ⟨-, h⟩ := h
        rw [if_neg (by omega : ¬ i = 0)] at h
        omega
      · simp at h



/-- C9: any remainder the scan returns is exactly the unconsumed tail of the
original vector: the start index lies inside the vector, the remainder
count plus the number of consumed leading tokens equals the original count,
and the vector splits at the start index into the consumed tokens followed
by the untouched tail. -/
theorem claim_C9 (g : GetoptState) (stop : StopCondition) (opts : List OptionView)
    (args : List Token) (seq : OptionSequence) (start : Nat)
    (hargs : args ≠ [])
    (h : parse_impl g stop opts args = .ok (seq, start)) :
    start ≤ args.length ∧ (args.drop start).length + start = args.length ∧
      args.take start ++ args.drop start = args := by
  have hlen : 1 ≤ args.length := by
    cases args
    · exact absurd rfl hargs
    · simp
  cases g
  simp only [parse_impl, scanFromState] at h
  have hstart : start ≤ args.length :=
    scanLoop_start_le opts stop args _ _ _ _ _ le_rfl hlen (by simpa using h)
  refine ⟨hstart, ?_, List.take_append_drop _ _⟩
  rw [List.length_drop]
  omega

/-! ## Help length accounting -/

/-- The characters the wrap emitter appends are exactly the characters the
length calculation counts. -/
theorem wrapEmit_length (dc : Nat) :
    ∀ (ws : List (List Char)) (pos : Nat),
      (wrapEmit dc ws pos).length = wrapCount dc ws pos := by
  intro ws
  induction ws with
  | nil =>
    intro pos
    simp [wrapEmit, wrapCount]
  | cons w ws ih =>
    intro pos
    rcases ws with _ | ⟨w2, ws2⟩
    · by_cases hwr : 80 < pos + w.length ∧ dc < pos <;>
        (simp [wrapEmit, wrapCount, hwr, spaces]; try omega)
    · by_cases hwr : 80 < pos + w.length ∧ dc < pos
      · by_cases hsep : 80 < dc + w.length + 1
        · simp [wrapEmit, wrapCount, hwr, hsep, spaces, ih]
          omega
        · simp [wrapEmit, wrapCount, hwr, hsep, spaces, ih]
          omega
      · by_cases hsep : 80 < pos + w.length + 1
        · simp [wrapEmit, wrapCount, hwr, hsep, spaces, ih]
          omega
        · simp [wrapEmit, wrapCount, hwr, hsep, spaces, ih]
          omega

/-- Descriptors with a printable short id or a non-empty long name; for
these the emitted label agrees with the counted label length.  The excluded
degenerate shape (a non-printable id with an empty long name) is the
subject of the C7 and C10 counterexamples. -/
def printable_or_named (o : OptionView) : Prop :=
  (33 ≤ o.shortopt ∧ o.shortopt ≤ 126) ∨ o.longopt ≠ []

/-- For a non-degenerate descriptor the emitted label has exactly the length
`option_label_length` computes. -/
theorem emitLabel_length (o : OptionView) (h : printable_or_named o) :
    (emitLabel o).length = option_label_length o := by
  by_cases hp : 33 ≤ o.shortopt ∧ o.shortopt ≤ 126
  · by_cases hl : o.longopt = [] <;>
      rcases ha : o.argRequirement <;>
      simp [emitLabel, option_label_length, argAnnot, hp, hl, ha, spaces] <;>
      omega
  · have hl : o.longopt ≠ [] := by
      rcases h with h | h
      · exact absurd h hp
      · exact h
    rcases ha : o.argRequirement <;>
      simp [emitLabel, option_label_length, argAnnot, hp, hl, ha, spaces] <;>
      omega

/-- For a non-degenerate descriptor the emitted entry has exactly the length
the per-entry calculation counts. -/
theorem helpEntry_length (maxL : Nat) (o : OptionView) (h : printable_or_named o) :
    (helpEntry maxL o).length = calcEntry maxL o := by
  simp [helpEntry, calcEntry, emitLabel_length o h, wrapEmit_length, spaces]
  omega

/-- C10 (amended): for every option table whose descriptors each have a
printable short id or a non-empty long name, the separately computed help
string length bound equals the number of characters the generator emits
plus the reserved trailing NUL. -/
theorem claim_C10 (opts : List OptionView)
    (h : ∀ o ∈ opts, printable_or_named o) :
    calculate_help_string_length opts - 1 = (generateHelpString opts).length := by
  have hmaps :
      opts.map (fun o => (helpEntry (max_option_label_length opts) o).length)
        = opts.map (calcEntry (max_option_label_length opts)) :=
    List.map_congr_left (fun o ho => helpEntry_length _ o (h o ho))
  simp only [calculate_help_string_length, generateHelpString, List.length_flatten,
    List.map_map, Nat.add_sub_cancel]
  rw [← List.sum_eq_foldl]
  have : (opts.map (helpEntry (max_option_label_length opts))).map List.length
      = opts.map (calcEntry (max_option_label_length opts)) := by
    rw [List.map_map]
    exact hmaps
  rw [← this, List.map_map]

/-! ## Alignment of the description column -/

/-- Words produced by the splitter contain no whitespace characters. -/
theorem splitWordsAux_no_ws :
    ∀ (s cur : List Char), (∀ c ∈ cur, is_ws c = false) →
      ∀ w ∈ splitWordsAux s cur, ∀ c ∈ w, is_ws c = false := by
  intro s
  induction s with
  | nil =>
    intro cur hcur w hw c hc
    by_cases hc0 : cur = []
    · simp [splitWordsAux, hc0] at hw
    · simp [splitWordsAux, hc0] at hw
      subst hw
      exact hcur c (by simpa using hc)
  | cons d r ih =>
    intro cur hcur w hw c hc
    by_cases hd : is_ws d
    · by_cases hc0 : cur = []
      · simp [splitWordsAux, hd, hc0] at hw
        exact ih [] (by simp) w hw c hc
      · simp [splitWordsAux, hd, hc0] at hw
        rcases hw with hw | hw
        · subst hw
          exact hcur c (by simpa using hc)
        · exact ih [] (by simp) w hw c hc
    · simp only [splitWordsAux, hd, if_false, Bool.false_eq_true] at hw
      refine ih (d :: cur) ?_ w hw c hc
      intro x hx
      rcases List.mem_cons.mp hx with rfl | hx
      · simpa using hd
      · exact hcur x hx

/-- Words of a description contain no whitespace characters. -/
theorem splitWords_no_ws (s : List Char) :
    ∀ w ∈ splitWords s, ∀ c ∈ w, is_ws c = false := by
  intro w hw c hc
  exact splitWordsAux_no_ws s [] (by simp) w hw c hc

/-- Words of a description contain no newline. -/
theorem splitWords_no_nl (s : List Char) :
    ∀ w ∈ splitWords s, ∀ c ∈ w, c ≠ '\n' := by
  intro w hw c hc hcc
  have h0 := splitWords_no_ws s w hw c hc
  rw [hcc] at h0
  exact absurd h0 (by decide)

/-- The fold computing the maximum label length never drops below its seed. -/
theorem foldl_max_le_init (l : List OptionView) :
    ∀ a : Nat, a ≤ l.foldl (fun m o => max m (option_label_length o)) a := by
  induction l with
  | nil =>
    intro a
    simp
  | cons o rest ih =>
    intro a
    simp only [List.foldl_cons]
    exact le_trans (le_max_left a _) (ih _)

/-- Every table member's label length is bounded by the table maximum. -/
theorem label_le_max (opts : List OptionView) (o : OptionView) (ho : o ∈ opts) :
    option_label_length o ≤ max_option_label_length opts := by
  unfold max_option_label_length
  suffices h : ∀ (l : List OptionView) (a : Nat), o ∈ l →
      option_label_length o ≤ l.foldl (fun m p => max m (option_label_length p)) a from
    h opts 0 ho
  intro l
  induction l with
  | nil =>
    intro a h
    simp at h
  | cons p rest ih =>
    intro a h
    rcases List.mem_cons.mp h with rfl | h
    · exact le_trans (le_max_right a _) (foldl_max_le_init rest _)
    · exact ih _ h

/-- Checks that every newline of a character list is immediately followed by
`dc` spaces (the description-column indentation of continuation lines). -/
def nlIndented (dc : Nat) : List Char → Bool
  | [] => true
  | c :: r =>
    (if c = '\n' then decide (r.take dc = List.replicate dc ' ') else true) && nlIndented dc r

/-- A list without newlines is trivially well indented. -/
theorem nlIndented_of_no_nl (dc : Nat) :
    ∀ (a : List Char), (∀ c ∈ a, c ≠ '\n') → nlIndented dc a = true := by
  intro a
  induction a with
  | nil => intro h; simp [nlIndented]
  | cons c r ih =>
    intro h
    have hc : c ≠ '\n' := h c (by simp)
    simp only [nlIndented, if_neg hc, Bool.true_and]
    exact ih (fun x hx => h x (by simp [hx]))

/-- Prepending newline-free characters does not affect indentation checking. -/
theorem nlIndented_append_no_nl (dc : Nat) :
    ∀ (a r : List Char), (∀ c ∈ a, c ≠ '\n') →
      nlIndented dc (a ++ r) = nlIndented dc r := by
  intro a
  induction a with
  | nil => intro r h; simp
  | cons c rest ih =>
    intro r h
    have hc : c ≠ '\n' := h c (by simp)
    simp only [List.cons_append, nlIndented, if_neg hc, Bool.true_and]
    exact ih r (fun x hx => h x (by simp [hx]))

/-- A newline followed by the description-column indentation passes the
check and the check continues after it. -/
theorem nlIndented_nl_spaces (dc : Nat) (b : List Char) :
    nlIndented dc ('\n' :: (spaces dc ++ b)) = nlIndented dc b := by
  have htake : (spaces dc ++ b).take dc = List.replicate dc ' ' := by
    have h0 := List.take_left (List.replicate dc ' ') b
    simp [spaces] at h0
    simp [spaces, h0]
  have hsp : ∀ c ∈ spaces dc, c ≠ '\n' := by
    intro c hc
    rw [spaces] at hc
    rw [List.eq_of_mem_replicate hc]
    decide
  simp only [nlIndented, if_pos rfl, htake, decide_eq_true_eq, Bool.true_and]
  · exact nlIndented_append_no_nl dc (spaces dc) b hsp

/-- Prepending one newline-free character does not affect indentation
checking. -/
theorem nlIndented_cons_no_nl (dc : Nat) (c : Char) (r : List Char) (hc : c ≠ '\n') :
    nlIndented dc (c :: r) = nlIndented dc r := by
  simp [nlIndented, hc]

/-- Every newline the wrap emitter produces is immediately followed by the
description-column indentation. -/
theorem nlIndented_wrapEmit (dc : Nat) :
    ∀ (ws : List (List Char)) (pos : Nat),
      (∀ w ∈ ws, ∀ c ∈ w, c ≠ '\n') →
      nlIndented dc (wrapEmit dc ws pos) = true := by
  intro ws
  induction ws with
  | nil =>
    intro pos h
    simp [wrapEmit, nlIndented]
  | cons w ws ih =>
    intro pos h
    have hw : ∀ c ∈ w, c ≠ '\n' := h w (by simp)
    have htail : ∀ w' ∈ ws, ∀ c ∈ w', c ≠ '\n' := fun w' hw' => h w' (by simp [hw'])
    rcases ws with _ | ⟨w2, ws2⟩
    · by_cases hwr : 80 < pos + w.length ∧ dc < pos
      · simp only [wrapEmit, if_pos hwr, List.cons_append]
        rw [nlIndented_nl_spaces]
        exact nlIndented_of_no_nl dc w hw
      · simp only [wrapEmit, if_neg hwr, List.nil_append]
        exact nlIndented_of_no_nl dc w hw
    · by_cases hwr : 80 < pos + w.length ∧ dc < pos
      · by_cases hsep : 80 < dc + w.length + 1
        · simp only [wrapEmit, if_pos hwr, if_pos hsep, List.cons_append,
            List.append_assoc]
          rw [nlIndented_nl_spaces, nlIndented_append_no_nl dc w _ hw,
            nlIndented_nl_spaces]
          exact ih dc htail
        · simp only [wrapEmit, if_pos hwr, if_neg hsep, List.cons_append,
            List.append_assoc]
          rw [nlIndented_nl_spaces, nlIndented_append_no_nl dc w _ hw,
            nlIndented_cons_no_nl dc ' ' _ (by decide)]
          exact ih _ htail
      · by_cases hsep : 80 < pos + w.length + 1
        · simp only [wrapEmit, if_neg hwr, if_pos hsep, List.nil_append,
            List.cons_append, List.append_assoc]
          rw [nlIndented_append_no_nl dc w _ hw, nlIndented_nl_spaces]
          exact ih dc htail
        · simp only [wrapEmit, if_neg hwr, if_neg hsep, List.nil_append,
            List.append_assoc]
          rw [nlIndented_append_no_nl dc w _ hw,
            nlIndented_cons_no_nl dc ' ' _ (by decide)]
          exact ih _ htail

/-- C7 (amended): for every table member with a printable short id or a
non-empty long name, the entry decomposes into a newline-free prefix (two
indent spaces, the label, and the right padding plus one separating space)
whose length is exactly the shared description column
`max label length + 3`, followed by the wrapped description in which every
newline is immediately followed by exactly that many indentation spaces,
and the final newline. -/
theorem claim_C7 (opts : List OptionView) (o : OptionView) (ho : o ∈ opts)
    (h : printable_or_named o) :
    helpEntry (max_option_label_length opts) o
      = ([' ', ' '] ++ emitLabel o
          ++ spaces (max_option_label_length opts - option_label_length o + 1))
        ++ (wrapEmit (max_option_label_length opts + 3) (splitWords o.description)
              (2 + max_option_label_length opts + 1) ++ ['\n']) ∧
    ([' ', ' '] ++ emitLabel o
      ++ spaces (max_option_label_length opts - option_label_length o + 1)).length
      = max_option_label_length opts + 3 ∧
    nlIndented (max_option_label_length opts + 3)
      (wrapEmit (max_option_label_length opts + 3) (splitWords o.description)
        (2 + max_option_label_length opts + 1)) = true := by
  refine ⟨by simp [helpEntry], ?_, ?_⟩
  · have h1 := emitLabel_length o h
    have h2 := label_le_max opts o ho
    simp [spaces, h1]
    omega
  · exact nlIndented_wrapEmit _ _ _ (splitWords_no_nl o.description)

/-! ## Line length bound machinery -/

/-- A printable character code never renders as a newline. -/
theorem char_ofNat_ne_nl (n : Nat) (h1 : 33 ≤ n) (h2 : n ≤ 126) :
    Char.ofNat n ≠ '\n' := by
  interval_cases n <;> decide

/-- The emitted label contains no newline when the long name and the
placeholder contain none. -/
theorem emitLabel_no_nl (o : OptionView)
    (hl : ∀ c ∈ o.longopt, c ≠ '\n') (hph : ∀ c ∈ o.argumentPlaceholder, c ≠ '\n') :
    ∀ c ∈ emitLabel o, c ≠ '\n' := by
  intro c hc hceq
  subst hceq
  simp only [emitLabel, List.mem_append] at hc
  rcases hc with (hc | hc) | hc
  · split at hc
    · rename_i hp
      simp only [List.mem_cons] at hc
      rcases hc with hc | hc | hc
      · exact absurd hc (by decide)
      · exact char_ofNat_ne_nl _ (by omega) (by omega) hc.symm
      · split at hc
        · simp only [List.mem_cons] at hc
          rcases hc with hc | hc
          · exact absurd hc (by decide)
          · simp at hc
        · simp at hc
    · rw [spaces] at hc
      have h0 := List.eq_of_mem_replicate hc
      exact absurd h0 (by decide)
  · split at hc
    · simp only [List.mem_cons] at hc
      rcases hc with hc | hc | hc
      · exact absurd hc (by decide)
      · exact absurd hc (by decide)
      · exact hl _ hc rfl
    · simp at hc
  · rcases ha : o.argRequirement <;> simp only [argAnnot, ha] at hc
    · simp at hc
    · simp only [List.mem_cons] at hc
      rcases hc with hc | hc | hc
      · exact absurd hc (by decide)
      · exact absurd hc (by decide)
      · simp only [List.mem_append, List.mem_singleton] at hc
        rcases hc with hc | hc
        · exact hph _ hc rfl
        · exact absurd hc (by decide)
    · simp only [List.mem_cons] at hc
      rcases hc with hc | hc
      · exact absurd hc (by decide)
      · simp only [List.mem_append, List.mem_singleton] at hc
        rcases hc with (hc | hc) | hc
        · split at hc
          · simp at hc
          · simp at hc
        · exact hph _ hc rfl
        · exact absurd hc (by decide)

/-- Line-width check with an explicit current column: every newline must be
reached at column at most 80, and so must the end of the text. -/
def chk (cur : Nat) : List Char → Bool
  | [] => decide (cur ≤ 80)
  | c :: r => if c = '\n' then decide (cur ≤ 80) && chk 0 r else chk (cur + 1) r

/-- Splitting on newlines never yields the empty list of segments. -/
theorem splitNl_ne_nil : ∀ s : List Char, splitNl s ≠ [] := by
  intro s
  cases s with
  | nil => simp [splitNl]
  | cons c r =>
    by_cases hc : c = '\n'
    · simp [splitNl, hc]
    · simp only [splitNl, if_neg hc]
      rcases h : splitNl r with _ | ⟨l, ls⟩ <;> simp

/-- Soundness of the column check: if the check passes from column `cur`,
every newline-separated segment fits in 80 columns (the first one already
counting the `cur` columns consumed before it). -/
theorem chk_sound :
    ∀ (s : List Char) (cur : Nat), chk cur s = true →
      ∀ l ∈ splitNl s, l.length ≤ 80 := by
  suffices h : ∀ (s : List Char) (cur : Nat), chk cur s = true →
      (∀ l ∈ (splitNl s).tail, l.length ≤ 80) ∧
      ∀ l0 ∈ (splitNl s).head?, cur + l0.length ≤ 80 by
    intro s cur hc l hl
    obtain ⟨ht, hh⟩ := h s cur hc
    rcases hsp : splitNl s with _ | ⟨l0, ls⟩
    · exact absurd hsp (splitNl_ne_nil s)
    · rw [hsp] at hl
      rcases List.mem_cons.mp hl with rfl | hl
    

      · have := hh l (by rw [hsp]; rfl)
        omega
      · exact ht l (by rw [hsp]; exact hl)
  intro s
  induction s with
  | nil =>
    intro cur hc
    simp only [chk, decide_eq_true_eq] at hc
    simp [splitNl]
    omega
  | cons c r ih =>
    intro cur hc
    by_cases hcn : c = '\n'
    · subst hcn
      simp [chk] at hc
      obtain ⟨hcur, hrest⟩ := hc
      obtain ⟨ht, hh⟩ := ih 0 hrest
      simp only [splitNl, if_pos rfl]
      constructor
      · intro l hl
        rcases hsp : splitNl r with _ | ⟨l0, ls⟩
        · exact absurd hsp (splitNl_ne_nil r)
        · rw [hsp] at hl
          simp only [List.tail_cons] at hl
          rcases List.mem_cons.mp hl with rfl | hl
          · have := hh l (by rw [hsp]; rfl)
            omega
          · exact ht l (by rw [hsp]; exact hl)
      · intro l0 hl0
        simp at hl0
        subst hl0
        simpa using hcur
    · simp only [chk, if_neg hcn] at hc
      obtain ⟨ht, hh⟩ := ih (cur + 1) hc
      rcases hsp : splitNl r with _ | ⟨l0, ls⟩
      · exact absurd hsp (splitNl_ne_nil r)
      · simp only [splitNl, if_neg hcn, hsp]
        rw [hsp] at ht hh
        constructor
        · intro l hl
          exact ht l hl
        · intro l1 hl1
          simp at hl1
          subst hl1
          have := hh l0 rfl
          simp
          omega

/-- Consuming one newline-free character advances the column by one. -/
theorem chk_cons_no_nl (cur : Nat) (c : Char) (r : List Char) (hc : c ≠ '\n') :
    chk cur (c :: r) = chk (cur + 1) r := by
  simp [chk, hc]

/-- Consuming newline-free characters advances the column accordingly. -/
theorem chk_append_no_nl :
    ∀ (a : List Char) (cur : Nat) (r : List Char),
      (∀ c ∈ a, c ≠ '\n') → chk cur (a ++ r) = chk (cur + a.length) r := by
  intro a
  induction a with
  | nil =>
    intro cur r h
    simp
  | cons c rest ih =>
    intro cur r h
    have hc : c ≠ '\n' := h c (by simp)
    rw [List.cons_append, chk_cons_no_nl _ _ _ hc,
      ih (cur + 1) r (fun x hx => h x (by simp [hx]))]
    have heq : cur + 1 + rest.length = cur + (c :: rest).length := by
      simp
      omega
    rw [heq]

/-- A newline at a column within the limit resets the column. -/
theorem chk_newline_le (cur : Nat) (r : List Char) (h : cur ≤ 80) :
    chk cur ('\n' :: r) = chk 0 r := by
  simp [chk, h]

/-- The spaces run contains no newline. -/
theorem spaces_no_nl (n : Nat) : ∀ c ∈ spaces n, c ≠ '\n' := by
  intro c hc
  rw [spaces] at hc
  rw [List.eq_of_mem_replicate hc]
  decide

/-- Running the column check across the wrapped description: starting at or
after the description column but within the limit, and with every word
fitting between the description column and the limit, the check passes the
wrapped text and resumes at some column within the limit. -/
theorem chk_wrapEmit (dc : Nat) (hdc : dc ≤ 80) :
    ∀ (ws : List (List Char)) (pos : Nat) (rest : List Char),
      (∀ w ∈ ws, dc + w.length ≤ 80 ∧ ∀ c ∈ w, c ≠ '\n') →
      dc ≤ pos → pos ≤ 80 →
      ∃ p, p ≤ 80 ∧ chk pos (wrapEmit dc ws pos ++ rest) = chk p rest := by
  intro ws
  induction ws with
  | nil =>
    intro pos rest hws hdp hp80
    exact ⟨pos, hp80, by simp [wrapEmit]⟩
  | cons w ws ih =>
    intro pos rest hws hdp hp80
    obtain ⟨hwfit, hwnl⟩ := hws w (by simp)
    have htail : ∀ w' ∈ ws, dc + w'.length ≤ 80 ∧ ∀ c ∈ w', c ≠ '\n' :=
      fun w' hw' => hws w' (by simp [hw'])
    rcases ws with _ | ⟨w2, ws2⟩
    · by_cases hwr : 80 < pos + w.length ∧ dc < pos
      · refine ⟨dc + w.length, hwfit, ?_⟩
        simp only [wrapEmit, if_pos hwr, List.cons_append, List.append_assoc]
        rw [chk_newline_le _ _ hp80, chk_append_no_nl _ _ _ (spaces_no_nl dc),
          chk_append_no_nl _ _ _ hwnl]
        simp [spaces]
      · refine ⟨pos + w.length, by omega, ?_⟩
        simp only [wrapEmit, if_neg hwr, List.nil_append]
        rw [chk_append_no_nl _ _ _ hwnl]
    · by_cases hwr : 80 < pos + w.length ∧ dc < pos
      · by_cases hsep : 80 < dc + w.length + 1
        · obtain ⟨p, hpl, hpe⟩ := ih dc rest htail le_rfl hdc
          refine ⟨p, hpl, ?_⟩
          simp only [wrapEmit, if_pos hwr, if_pos hsep, List.cons_append,
            List.append_assoc]
          rw [chk_newline_le _ _ hp80, chk_append_no_nl _ _ _ (spaces_no_nl dc),
            chk_append_no_nl _ _ _ hwnl]
          have hcol : 0 + (spaces dc).length + w.length ≤ 80 := by
            simpa [spaces] using hwfit
          rw [chk_newline_le _ _ hcol, chk_append_no_nl _ _ _ (spaces_no_nl dc)]
          simpa [spaces] using hpe
        · obtain ⟨p, hpl, hpe⟩ := ih (dc + w.length + 1) rest htail (by omega)
            (by omega)
          refine ⟨p, hpl, ?_⟩
          simp only [wrapEmit, if_pos hwr, if_neg hsep, List.cons_append,
            List.append_assoc]
          rw [chk_newline_le _ _ hp80, chk_append_no_nl _ _ _ (spaces_no_nl dc),
            chk_append_no_nl _ _ _ hwnl, chk_cons_no_nl _ _ _ (by decide)]
          rw [show (0 + (spaces dc).length + w.length + 1) = dc + w.length + 1 by
            simp [spaces]]
          exact hpe
      · have hfit2 : pos + w.length ≤ 80 := by
          rcases Decidable.not_and_iff_or_not.mp hwr with h | h
          · omega
          · have hpd : pos = dc := by omega
            omega
        by_cases hsep : 80 < pos + w.length + 1
        · obtain ⟨p, hpl, hpe⟩ := ih dc rest htail le_rfl hdc
          refine ⟨p, hpl, ?_⟩
          simp only [wrapEmit, if_neg hwr, if_pos hsep, List.nil_append,
            List.cons_append, List.append_assoc]
          rw [chk_append_no_nl _ _ _ hwnl, chk_newline_le _ _ (by omega),
            chk_append_no_nl _ _ _ (spaces_no_nl dc)]
          simpa [spaces] using hpe
        · obtain ⟨p, hpl, hpe⟩ := ih (pos + w.length + 1) rest htail (by omega)
            (by omega)
          refine ⟨p, hpl, ?_⟩
          simp only [wrapEmit, if_neg hwr, if_neg hsep, List.nil_append,
            List.cons_append, List.append_assoc]
          rw [chk_append_no_nl _ _ _ hwnl, chk_cons_no_nl _ _ _ (by decide)]
          exact hpe

/-- The column check passes over a list of help entries when every
descriptor is non-degenerate, fits the shared column, and wraps into
fitting words. -/
theorem chk_entryList (maxL : Nat) (hdc : maxL + 3 ≤ 80) :
    ∀ (l : List OptionView),
      (∀ o ∈ l, printable_or_named o) →
      (∀ o ∈ l, option_label_length o ≤ maxL) →
      (∀ o ∈ l, ∀ w ∈ splitWords o.description, (maxL + 3) + w.length ≤ 80) →
      (∀ o ∈ l, ∀ c ∈ emitLabel o, c ≠ '\n') →
      chk 0 ((l.map (helpEntry maxL)).flatten) = true := by
  intro l
  induction l with
  | nil =>
    intro _ _ _ _
    simp [chk]
  | cons o rest ih =>
    intro h1 h2 h3 h4
    have h2o := h2 o (by simp)
    simp only [List.map_cons, List.flatten_cons, helpEntry, List.append_assoc,
      List.cons_append, List.nil_append, List.singleton_append]
    rw [show ((' ' : Char) :: ' ' :: (emitLabel o
          ++ (spaces (maxL - option_label_length o + 1)
            ++ (wrapEmit (maxL + 3) (splitWords o.description) (2 + maxL + 1)
              ++ ('\n' :: (rest.map (helpEntry maxL)).flatten)))))
        = [' ', ' '] ++ (emitLabel o
            ++ (spaces (maxL - option_label_length o + 1)
              ++ (wrapEmit (maxL + 3) (splitWords o.description) (2 + maxL + 1)
                ++ ('\n' :: (rest.map (helpEntry maxL)).flatten)))) from rfl]
    rw [chk_append_no_nl _ _ _ (by intro c hc; simp at hc; subst hc; decide),
      chk_append_no_nl _ _ _ (h4 o (by simp)),
      chk_append_no_nl _ _ _ (spaces_no_nl _)]
    rw [emitLabel_length o (h1 o (by simp))]
    rw [show (0 + ([' ', ' '] : List Char).length + option_label_length o
          + (spaces (maxL - option_label_length o + 1)).length) = 2 + maxL + 1 from by
      simp [spaces]
      omega]
    obtain ⟨p, hpl, hpe⟩ :=
      chk_wrapEmit (maxL + 3) hdc (splitWords o.description) (2 + maxL + 1)
        ('\n' :: (rest.map (helpEntry maxL)).flatten)
        (fun w hw => ⟨h3 o (by simp) w hw, splitWords_no_nl o.description w hw⟩)
        (by omega) (by omega)
    rw [hpe, chk_newline_le _ _ hpl]
    exact ih (fun p hp => h1 p (by simp [hp])) (fun p hp => h2 p (by simp [hp]))
      (fun p hp => h3 p (by simp [hp])) (fun p hp => h4 p (by simp [hp]))

/-- C6 (amended): every line of the generated help text is at most 80
characters, provided every descriptor has a printable short id or a
non-empty long name, the shared description column (max label length plus
three) is within the 80-column limit, every description word fits between
the description column and the limit, and long names and placeholders
contain no newline of their own. -/
theorem claim_C6 (opts : List OptionView)
    (h1 : ∀ o ∈ opts, printable_or_named o)
    (h2 : max_option_label_length opts + 3 ≤ 80)
    (h3 : ∀ o ∈ opts, ∀ w ∈ splitWords o.description,
        (max_option_label_length opts + 3) + w.length ≤ 80)
    (h4 : ∀ o ∈ opts,
        (∀ c ∈ o.longopt, c ≠ '\n') ∧ ∀ c ∈ o.argumentPlaceholder, c ≠ '\n') :
    ∀ l ∈ splitNl (generateHelpString opts), l.length ≤ 80 := by
  have hchk : chk 0 (generateHelpString opts) = true := by
    rw [generateHelpString]
    exact chk_entryList (max_option_label_length opts) h2 opts h1
      (fun o ho => label_le_max opts o ho) h3
      (fun o ho => emitLabel_no_nl o (h4 o ho).1 (h4 o ho).2)
  exact chk_sound _ 0 hchk

instance (o : OptionView) : Decidable (printable_or_named o) :=
  decidable_of_iff ((33 ≤ o.shortopt ∧ o.shortopt ≤ 126) ∨ o.longopt ≠ []) Iff.rfl

/-- Witness for C1 at the spec's exemplar: table with `p/param` optional,
scanning `prog -p zzz`. -/
theorem claim_C1_witness :
    walkCluster [optP] ['p'] (some (str "zzz"))
      = .ok [⟨optP.shortopt, some (str "zzz")⟩] true ∧
    parse_impl ⟨7⟩ .AllOptions [optP] [str "prog", ['-', 'p'], str "zzz"]
      = .ok (⟨[⟨optP.shortopt, some (str "zzz")⟩], []⟩, 3) :=
  claim_C1 [optP] 'p' optP (str "zzz") ⟨7⟩ (by decide) (by decide) (by decide)
    (by decide)

/-- Witness for C2 at the spec's exemplar: table with `p/param` optional,
scanning `--param`, `--param=zzz` and `--param pos`. -/
theorem claim_C2_witness :
    parse_impl ⟨3⟩ .AllOptions [optP] [str "prog", '-' :: '-' :: str "param"]
      = .ok (⟨[⟨optP.shortopt, none⟩], []⟩, 2) ∧
    parse_impl ⟨3⟩ .AllOptions [optP]
        [str "prog", '-' :: '-' :: (str "param" ++ '=' :: str "zzz")]
      = .ok (⟨[⟨optP.shortopt, some (str "zzz")⟩], []⟩, 2) ∧
    parse_impl ⟨3⟩ .AllOptions [optP] [str "prog", '-' :: '-' :: str "param", str "pos"]
      = .ok (⟨[⟨optP.shortopt, none⟩], [str "pos"]⟩, 3) :=
  claim_C2 [optP] (str "param") (str "zzz") (str "pos") optP ⟨3⟩ (by decide)
    (by decide) (by decide) (by decide) (by decide)

/-- Witness for C6 on a concrete sane table, instantiated at that table's
help line. -/
theorem claim_C6_witness :
    (str "  -h, --help show this help text").length ≤ 80 :=
  claim_C6 [optH] (by decide) (by decide) (by decide) (by decide)
    (str "  -h, --help show this help text") (by decide)

/-- Witness for C7 on a concrete sane table. -/
theorem claim_C7_witness :
    helpEntry (max_option_label_length [optH]) optH
      = ([' ', ' '] ++ emitLabel optH
          ++ spaces (max_option_label_length [optH] - option_label_length optH + 1))
        ++ (wrapEmit (max_option_label_length [optH] + 3) (splitWords optH.description)
              (2 + max_option_label_length [optH] + 1) ++ ['\n']) ∧
    ([' ', ' '] ++ emitLabel optH
      ++ spaces (max_option_label_length [optH] - option_label_length optH + 1)).length
      = max_option_label_length [optH] + 3 ∧
    nlIndented (max_option_label_length [optH] + 3)
      (wrapEmit (max_option_label_length [optH] + 3) (splitWords optH.description)
        (2 + max_option_label_length [optH] + 1)) = true :=
  claim_C7 [optH] optH (by decide) (by decide)

/-- Witness for C9 on a concrete bounded scan. -/
theorem claim_C9_witness :
    2 ≤ ([str "prog", str "-v", str "x"] : List Token).length ∧
    (([str "prog", str "-v", str "x"] : List Token).drop 2).length + 2
      = ([str "prog", str "-v", str "x"] : List Token).length ∧
    ([str "prog", str "-v", str "x"] : List Token).take 2
        ++ ([str "prog", str "-v", str "x"] : List Token).drop 2
      = [str "prog", str "-v", str "x"] :=
  claim_C9 ⟨5⟩ .BeforeFirstNonOptionArgument [optV] [str "prog", str "-v", str "x"]
    ⟨[⟨118, none⟩], []⟩ 2 (by decide) (by decide)

/-- Witness for C10 on a concrete sane table. -/
theorem claim_C10_witness :
    calculate_help_string_length [optO] - 1 = (generateHelpString [optO]).length :=
  claim_C10 [optO] (by decide)
